import Mathlib

/-!
# Verification of the `term-type` typing-test state machine

Shallow embedding of `src/state.go` (the typing-session state machine and
metrics engine of the `term-type` terminal typing test) and proofs of the
specification's claims about it.

Modelling conventions:
* Go `[]rune` buffers (`Input`, and `Target` which is always consumed as
  `[]rune(s.Target)`) become `List Char`.
* `time.Time` / `time.Duration` values become rationals (`ℚ`), measured in
  seconds; the ambient clock `time.Now()` becomes an explicit `now : ℚ`
  argument to the operations that read it.
* `float64` arithmetic in the metrics (`WPM`, `Accuracy`) is modelled over
  `ℚ`: the claims concern which formula is computed, and every branch test
  in the source (`elapsed == 0`, `total == 0`) is exact there.
* Go methods on `*TestState` that mutate the receiver become functions
  `TestState → TestState`.
-/

namespace TermType

/-- The session state, field for field from `TestState` in `src/state.go`. -/
structure TestState where
  Target : List Char
  Input : List Char
  StartTime : ℚ
  EndTime : ℚ
  Started : Bool
  Finished : Bool
  TimedMode : Bool
  TimeLimitSec : Int
  WordCount : Int
  PipedText : List Char
  deriving Repr, DecidableEq

/-- `NewTestState` from `src/state.go`: zero-valued state except the mode
parameters.  (The Go constructor pre-allocates capacity for `Input`;
capacity is not observable, so `Input` is just the empty list.) -/
def NewTestState (target : List Char) (timedMode : Bool)
    (timeLimitSec : Int) (wordCount : Int) : TestState :=
  { Target := target
    Input := []
    StartTime := 0
    EndTime := 0
    Started := false
    Finished := false
    TimedMode := timedMode
    TimeLimitSec := timeLimitSec
    WordCount := wordCount
    PipedText := [] }

/-- `Finish` from `src/state.go`: first effective call records `EndTime`. -/
def Finish (now : ℚ) (s : TestState) : TestState :=
  if s.Finished then s else { s with Finished := true, EndTime := now }

/-- `HandleChar` from `src/state.go`: no-op when finished; marks the session
started on the first call; refuses characters once `Input` has reached the
target's rune length; otherwise appends the character verbatim and, in
non-timed mode, finishes when the target length is reached. -/
def HandleChar (now : ℚ) (ch : Char) (s : TestState) : TestState :=
  if s.Finished then s
  else
    let s1 := if s.Started then s else { s with Started := true, StartTime := now }
    if s1.Target.length ≤ s1.Input.length then s1
    else
      let s2 := { s1 with Input := s1.Input ++ [ch] }
      if ¬s2.TimedMode ∧ s2.Input.length = s2.Target.length then Finish now s2
      else s2

/-- `HandleBackspace` from `src/state.go`. -/
def HandleBackspace (s : TestState) : TestState :=
  if s.Finished ∨ s.Input = [] then s
  else { s with Input := s.Input.dropLast }

/-- One Go loop `for len(l) > 0 && p(last l) { l = l[:len(l)-1] }`:
drop elements from the end of the list while they satisfy `p`. -/
def dropTrailingWhile (p : Char → Bool) (l : List Char) : List Char :=
  (l.reverse.dropWhile p).reverse

/-- `HandleDeleteWord` from `src/state.go`: no-op when finished or empty;
otherwise delete trailing spaces, then delete until a space or the start. -/
def HandleDeleteWord (s : TestState) : TestState :=
  if s.Finished ∨ s.Input = [] then s
  else
    let noTrailSpaces := dropTrailingWhile (fun c => c = ' ') s.Input
    { s with Input := dropTrailingWhile (fun c => c ≠ ' ') noTrailSpaces }

/-- `Elapsed` from `src/state.go`, in seconds. -/
def Elapsed (now : ℚ) (s : TestState) : ℚ :=
  if ¬s.Started then 0
  else if s.Finished then s.EndTime - s.StartTime
  else now - s.StartTime

/-- The loop body shared by `CorrectChars` and `WrongChars`: the Go code
ranges over `Input` and counts indices `i` that are still inside `target`
and whose characters agree (`cmp = true`) resp. disagree (`cmp = false`). -/
def countCmp (cmp : Bool) : List Char → List Char → Nat
  | [], _ => 0
  | _ :: _, [] => 0
  | c :: cs, t :: ts => (if (c == t) = cmp then 1 else 0) + countCmp cmp cs ts

/-- `CorrectChars` from `src/state.go`. -/
def CorrectChars (s : TestState) : Nat :=
  countCmp true s.Input s.Target

/-- `WrongChars` from `src/state.go`. -/
def WrongChars (s : TestState) : Nat :=
  countCmp false s.Input s.Target

/-- `WPM` from `src/state.go`: `Elapsed().Minutes()` is the elapsed seconds
divided by 60. -/
def WPM (now : ℚ) (s : TestState) : ℚ :=
  let elapsed := Elapsed now s / 60
  if elapsed = 0 then 0 else ((CorrectChars s : ℚ) / 5) / elapsed

/-- `Accuracy` from `src/state.go`. -/
def Accuracy (s : TestState) : ℚ :=
  let total := s.Input.length
  if total = 0 then 100 else (CorrectChars s : ℚ) / (total : ℚ) * 100

/-- `TimeRemaining` from `src/state.go`. -/
def TimeRemaining (now : ℚ) (s : TestState) : ℚ :=
  if ¬s.TimedMode ∨ ¬s.Started then (s.TimeLimitSec : ℚ)
  else
    let rem := (s.TimeLimitSec : ℚ) - Elapsed now s
    if rem < 0 then 0 else rem

/-- A mutation event forwarded into the session, for reachability
statements: the four mutating operations of `src/state.go`. -/
inductive Op where
  | typeChar (now : ℚ) (ch : Char)
  | backspace
  | deleteWord
  | finish (now : ℚ)
  deriving Repr

/-- Apply one mutation event. -/
def applyOp (s : TestState) : Op → TestState
  | .typeChar now ch => HandleChar now ch s
  | .backspace => HandleBackspace s
  | .deleteWord => HandleDeleteWord s
  | .finish now => Finish now s

/-- Apply a sequence of mutation events in order. -/
def runOps (s : TestState) (ops : List Op) : TestState :=
  ops.foldl applyOp s

/-- A sequence of `HandleChar` calls with a fixed clock value. -/
def typeAll (now : ℚ) (cs : List Char) (s : TestState) : TestState :=
  cs.foldl (fun st c => HandleChar now c st) s

/-- A concrete non-timed session over the 16-character target
`"hello world plus"` with the given text already typed, used to evaluate
the specification's worked examples. -/
def exSession (input : String) : TestState :=
  typeAll 0 input.toList (NewTestState "hello world plus".toList false 0 0)

/-! ## Basic facts about the operations -/

lemma finish_target (now : ℚ) (s : TestState) : (Finish now s).Target = s.Target := by
  unfold Finish; split <;> rfl

lemma finish_input (now : ℚ) (s : TestState) : (Finish now s).Input = s.Input := by
  unfold Finish; split <;> rfl

lemma finish_finished (now : ℚ) (s : TestState) : (Finish now s).Finished = true := by
  unfold Finish; split
  · assumption
  · rfl

lemma hc_eq_of_finished (now : ℚ) (ch : Char) (s : TestState)
    (h : s.Finished = true) : HandleChar now ch s = s := by
  unfold HandleChar; rw [h]; rfl

lemma hc_target (now : ℚ) (ch : Char) (s : TestState) :
    (HandleChar now ch s).Target = s.Target := by
  unfold HandleChar Finish
  dsimp only
  split_ifs <;> rfl

lemma hc_timedMode (now : ℚ) (ch : Char) (s : TestState) :
    (HandleChar now ch s).TimedMode = s.TimedMode := by
  unfold HandleChar Finish
  dsimp only
  split_ifs <;> rfl

lemma hc_input_full (now : ℚ) (ch : Char) (s : TestState)
    (h : s.Target.length ≤ s.Input.length) :
    (HandleChar now ch s).Input = s.Input := by
  unfold HandleChar
  dsimp only
  split_ifs <;> simp_all

lemma hc_input_append (now : ℚ) (ch : Char) (s : TestState)
    (hf : s.Finished = false) (h : s.Input.length < s.Target.length) :
    (HandleChar now ch s).Input = s.Input ++ [ch] := by
  unfold HandleChar
  dsimp only
  rw [hf]
  simp only [Bool.false_eq_true, if_false]
  split_ifs <;> (try simp_all [finish_input]) <;> omega

lemma hc_finished_iff (now : ℚ) (ch : Char) (s : TestState)
    (hf : s.Finished = false) :
    ((HandleChar now ch s).Finished = true ↔
      s.TimedMode = false ∧ s.Input.length + 1 = s.Target.length) := by
  unfold HandleChar
  dsimp only
  rw [hf]
  simp only [Bool.false_eq_true, if_false]
  split_ifs with h1 h2 h2 <;>
    simp_all [finish_finished] <;> omega

lemma hc_finished_timed (now : ℚ) (ch : Char) (s : TestState)
    (ht : s.TimedMode = true) :
    (HandleChar now ch s).Finished = s.Finished := by
  cases hf : s.Finished with
  | true => rw [hc_eq_of_finished now ch s hf, hf]
  | false =>
      have := hc_finished_iff now ch s hf
      rw [ht] at this
      simp only [Bool.true_eq_false, false_and, iff_false] at this
      cases h : (HandleChar now ch s).Finished with
      | true => exact absurd h this
      | false => rfl

lemma typeAll_cons (now : ℚ) (c : Char) (cs : List Char) (s : TestState) :
    typeAll now (c :: cs) s = typeAll now cs (HandleChar now c s) := rfl

/-- While the target still has room for the whole remaining sequence, every
character is accepted and appended in order. -/
lemma typeAll_input (now : ℚ) (cs : List Char) : ∀ s : TestState,
    s.Finished = false → s.Input.length + cs.length ≤ s.Target.length →
    (typeAll now cs s).Input = s.Input ++ cs := by
  induction cs with
  | nil => intro s _ _; simp [typeAll]
  | cons c cs ih =>
      intro s hf hlen
      have hlt : s.Input.length < s.Target.length := by
        simp only [List.length_cons] at hlen; omega
      have hin := hc_input_append now c s hf hlt
      rw [typeAll_cons]
      cases cs with
      | nil =>
          have : typeAll now [] (HandleChar now c s) = HandleChar now c s := rfl
          rw [this, hin]
      | cons d ds =>
          have hfin : (HandleChar now c s).Finished = false := by
            cases h : (HandleChar now c s).Finished with
            | false => rfl
            | true =>
                rcases (hc_finished_iff now c s hf).mp h with ⟨_, heq⟩
                simp only [List.length_cons] at hlen
                omega
          have hbound : (HandleChar now c s).Input.length + (d :: ds).length ≤
              (HandleChar now c s).Target.length := by
            rw [hin, hc_target, List.length_append]
            simp only [List.length_cons, List.length_nil] at hlen ⊢
            omega
          rw [ih (HandleChar now c s) hfin hbound, hin]
          simp

/-! ## Length bounds -/

lemma backspace_input_le (s : TestState) :
    (HandleBackspace s).Input.length ≤ s.Input.length := by
  unfold HandleBackspace
  split
  · exact le_refl _
  · dsimp only
    rw [List.length_dropLast]
    omega

lemma backspace_target (s : TestState) : (HandleBackspace s).Target = s.Target := by
  unfold HandleBackspace; split <;> rfl

lemma dropTrailingWhile_length_le (p : Char → Bool) (l : List Char) :
    (dropTrailingWhile p l).length ≤ l.length := by
  unfold dropTrailingWhile
  have h := congrArg List.length (List.takeWhile_append_dropWhile (p := p) (l := l.reverse))
  simp only [List.length_append, List.length_reverse] at h ⊢
  omega

lemma deleteWord_input_le (s : TestState) :
    (HandleDeleteWord s).Input.length ≤ s.Input.length := by
  unfold HandleDeleteWord
  split
  · exact le_refl _
  · dsimp only
    exact le_trans (dropTrailingWhile_length_le _ _)
      (dropTrailingWhile_length_le _ _)

lemma deleteWord_target (s : TestState) : (HandleDeleteWord s).Target = s.Target := by
  unfold HandleDeleteWord; split <;> rfl

lemma hc_input_length_le (now : ℚ) (ch : Char) (s : TestState)
    (h : s.Input.length ≤ s.Target.length) :
    (HandleChar now ch s).Input.length ≤ s.Target.length := by
  cases hf : s.Finished with
  | true => rw [hc_eq_of_finished now ch s hf]; exact h
  | false =>
      rcases lt_or_ge s.Input.length s.Target.length with hlt | hge
      · rw [hc_input_append now ch s hf hlt, List.length_append]
        simp only [List.length_singleton]
        omega
      · rw [hc_input_full now ch s hge]
        exact h

lemma applyOp_target (s : TestState) (op : Op) : (applyOp s op).Target = s.Target := by
  cases op with
  | typeChar now ch => exact hc_target now ch s
  | backspace => exact backspace_target s
  | deleteWord => exact deleteWord_target s
  | finish now => exact finish_target now s

lemma applyOp_invariant (s : TestState) (op : Op)
    (h : s.Input.length ≤ s.Target.length) :
    (applyOp s op).Input.length ≤ s.Target.length := by
  cases op with
  | typeChar now ch => exact hc_input_length_le now ch s h
  | backspace => exact le_trans (backspace_input_le s) h
  | deleteWord => exact le_trans (deleteWord_input_le s) h
  | finish now => rw [applyOp, finish_input]; exact h

lemma runOps_target (ops : List Op) : ∀ s : TestState,
    (runOps s ops).Target = s.Target := by
  induction ops with
  | nil => intro s; rfl
  | cons op ops ih =>
      intro s
      have : runOps s (op :: ops) = runOps (applyOp s op) ops := rfl
      rw [this, ih, applyOp_target]

lemma runOps_invariant (ops : List Op) : ∀ s : TestState,
    s.Input.length ≤ s.Target.length →
    (runOps s ops).Input.length ≤ s.Target.length := by
  induction ops with
  | nil => intro s h; exact h
  | cons op ops ih =>
      intro s h
      have hstep : runOps s (op :: ops) = runOps (applyOp s op) ops := rfl
      rw [hstep]
      have := ih (applyOp s op) ((applyOp_target s op).symm ▸ applyOp_invariant s op h)
      rw [applyOp_target] at this
      exact this

/-! ## Counting characterisations -/

/-- Every compared position is counted exactly once: correct plus wrong
equals the number of positions where both buffers have a character. -/
lemma countCmp_add (xs : List Char) : ∀ ys : List Char,
    countCmp true xs ys + countCmp false xs ys = min xs.length ys.length := by
  induction xs with
  | nil => intro ys; simp [countCmp]
  | cons x xs ih =>
      intro ys
      cases ys with
      | nil => simp [countCmp]
      | cons y ys =>
          have h := ih ys
          by_cases hxy : x = y <;> simp [countCmp, hxy] <;> omega

/-- `countCmp true` counts the positions `i < len(input)` with
`i < len(target)` and matching characters. -/
lemma countCmp_true_spec (xs : List Char) : ∀ ys : List Char,
    countCmp true xs ys =
      ((Finset.range xs.length).filter
        (fun i => i < ys.length ∧ xs.getD i ' ' = ys.getD i ' ')).card := by
  induction xs with
  | nil => intro ys; simp [countCmp]
  | cons x xs ih =>
      intro ys
      cases ys with
      | nil => simp [countCmp]
      | cons y ys =>
          rw [Finset.card_filter, List.length_cons, Finset.sum_range_succ']
          simp only [List.getD_cons_succ, List.getD_cons_zero, List.length_cons,
            Nat.succ_lt_succ_iff, Nat.zero_lt_succ, true_and]
          rw [← Finset.card_filter]
          by_cases hxy : x = y <;> simp [countCmp, hxy, ih ys, Nat.add_comm]

/-- `countCmp false` counts the positions `i < len(input)` with
`i < len(target)` and differing characters. -/
lemma countCmp_false_spec (xs : List Char) : ∀ ys : List Char,
    countCmp false xs ys =
      ((Finset.range xs.length).filter
        (fun i => i < ys.length ∧ xs.getD i ' ' ≠ ys.getD i ' ')).card := by
  induction xs with
  | nil => intro ys; simp [countCmp]
  | cons x xs ih =>
      intro ys
      cases ys with
      | nil => simp [countCmp]
      | cons y ys =>
          rw [Finset.card_filter, List.length_cons, Finset.sum_range_succ']
          simp only [List.getD_cons_succ, List.getD_cons_zero, List.length_cons,
            Nat.succ_lt_succ_iff, Nat.zero_lt_succ, true_and]
          rw [← Finset.card_filter]
          by_cases hxy : x = y <;> simp [countCmp, hxy, ih ys, Nat.add_comm]

/-! ## Structure of the delete-word operation -/

/-- `dropTrailingWhile p` removes a suffix whose characters all satisfy `p`. -/
lemma dropTrailingWhile_decomp (p : Char → Bool) (l : List Char) :
    ∃ t : List Char, l = dropTrailingWhile p l ++ t ∧ ∀ c ∈ t, p c = true := by
  refine ⟨(l.reverse.takeWhile p).reverse, ?_, ?_⟩
  · unfold dropTrailingWhile
    rw [← List.reverse_append, List.takeWhile_append_dropWhile, List.reverse_reverse]
  · intro c hc
    rw [List.mem_reverse] at hc
    exact List.mem_takeWhile_imp hc

lemma dropWhile_cons_head_false (p : Char → Bool) : ∀ (L : List Char) (x : Char)
    (xs : List Char), L.dropWhile p = x :: xs → p x = false := by
  intro L
  induction L with
  | nil => intro x xs h; simp [List.dropWhile] at h
  | cons a L ih =>
      intro x xs h
      by_cases pa : p a = true
      · rw [List.dropWhile_cons_of_pos pa] at h
        exact ih x xs h
      · rw [List.dropWhile_cons_of_neg pa] at h
        cases h
        simpa using pa

/-- What survives `dropTrailingWhile p` is empty or ends in a character
violating `p`. -/
lemma dropTrailingWhile_last (p : Char → Bool) (l : List Char) :
    dropTrailingWhile p l = [] ∨
    ∃ pre c, dropTrailingWhile p l = pre ++ [c] ∧ p c = false := by
  unfold dropTrailingWhile
  cases h : l.reverse.dropWhile p with
  | nil => left; rfl
  | cons x xs =>
      right
      exact ⟨xs.reverse, x, by simp,
        dropWhile_cons_head_false p l.reverse x xs h⟩

/-! ## Claims -/

/-- C1: Completion depends only on the mode. For every unfinished session
with a non-empty target, a `HandleChar` call finishes the session exactly
when the mode is non-timed and the call makes the input length equal the
target length; a timed session is never finished by `HandleChar`, and an
explicit `Finish` call always finishes. -/
theorem typeChar_completion_by_mode (now : ℚ) (ch : Char) (s : TestState)
    (_hT : s.Target ≠ []) :
    (s.Finished = false →
      ((HandleChar now ch s).Finished = true ↔
        s.TimedMode = false ∧ s.Input.length + 1 = s.Target.length)) ∧
    (s.TimedMode = true → (HandleChar now ch s).Finished = s.Finished) ∧
    (Finish now s).Finished = true :=
  ⟨fun hf => hc_finished_iff now ch s hf,
   fun ht => hc_finished_timed now ch s ht,
   finish_finished now s⟩

/-- Witness for C1: on the fresh one-character non-timed session the very
first character finishes the test, by the theorem's equivalence. -/
theorem typeChar_completion_by_mode_witness :
    (NewTestState ['a'] false 0 0).Target ≠ [] ∧
    (HandleChar 0 'x' (NewTestState ['a'] false 0 0)).Finished = true :=
  ⟨by decide,
   ((typeChar_completion_by_mode 0 'x' (NewTestState ['a'] false 0 0)
      (by decide)).1 rfl).mpr ⟨rfl, by decide⟩⟩

/-- C2: `HandleChar` leaves the input unchanged when the session is
finished or full, otherwise appends the character verbatim; a sequence of
calls on a fresh session that fits the target is accepted in full, in
order. -/
theorem typeChar_appends_verbatim :
    (∀ (now : ℚ) (ch : Char) (s : TestState),
      s.Finished = true ∨ s.Input.length = s.Target.length →
      (HandleChar now ch s).Input = s.Input) ∧
    (∀ (now : ℚ) (ch : Char) (s : TestState),
      s.Finished = false → s.Input.length < s.Target.length →
      (HandleChar now ch s).Input = s.Input ++ [ch]) ∧
    (∀ (now : ℚ) (cs target : List Char) (tm : Bool) (tl wc : Int),
      cs.length ≤ target.length →
      (typeAll now cs (NewTestState target tm tl wc)).Input = cs ∧
      (typeAll now cs (NewTestState target tm tl wc)).Input.length = cs.length) := by
  refine ⟨?_, ?_, ?_⟩
  · rintro now ch s (hf | hlen)
    · rw [hc_eq_of_finished now ch s hf]
    · exact hc_input_full now ch s (le_of_eq hlen.symm)
  · intro now ch s hf hlt
    exact hc_input_append now ch s hf hlt
  · intro now cs target tm tl wc hle
    have h := typeAll_input now cs (NewTestState target tm tl wc) rfl
      (by simpa [NewTestState] using hle)
    have h2 : (typeAll now cs (NewTestState target tm tl wc)).Input = cs := by
      rw [h]; rfl
    exact ⟨h2, by rw [h2]⟩

/-- Witness for C2: typing `"ab"` into a fresh `"abc"` session stores
exactly `"ab"`. -/
theorem typeChar_appends_verbatim_witness :
    "ab".toList.length ≤ "abc".toList.length ∧
    (typeAll 0 "ab".toList (NewTestState "abc".toList false 0 0)).Input =
      "ab".toList :=
  ⟨by decide,
   (typeChar_appends_verbatim.2.2 0 "ab".toList "abc".toList false 0 0
      (by decide)).1⟩

/-- C3: from construction onward, no sequence of operations ever pushes the
input length past the target length, and backspace and delete-word only
ever shrink the input (its length is a natural number, so it can never go
below zero). -/
theorem input_length_invariant :
    (∀ (target : List Char) (tm : Bool) (tl wc : Int) (ops : List Op),
      (runOps (NewTestState target tm tl wc) ops).Input.length ≤ target.length) ∧
    (∀ s : TestState, (HandleBackspace s).Input.length ≤ s.Input.length) ∧
    (∀ s : TestState, (HandleDeleteWord s).Input.length ≤ s.Input.length) := by
  refine ⟨?_, backspace_input_le, deleteWord_input_le⟩
  intro target tm tl wc ops
  have h := runOps_invariant ops (NewTestState target tm tl wc)
    (by simp [NewTestState])
  simpa [NewTestState] using h

/-- C4: `Finished` is terminal. Every mutation on a finished session is the
identity (in particular `EndTime` never changes), and the first effective
`Finish` call is the one that sets `Finished` and `EndTime`. -/
theorem finished_is_terminal :
    (∀ (now : ℚ) (ch : Char) (s : TestState), s.Finished = true →
      HandleChar now ch s = s) ∧
    (∀ s : TestState, s.Finished = true → HandleBackspace s = s) ∧
    (∀ s : TestState, s.Finished = true → HandleDeleteWord s = s) ∧
    (∀ (now : ℚ) (s : TestState), s.Finished = true → Finish now s = s) ∧
    (∀ (now : ℚ) (s : TestState), s.Finished = false →
      (Finish now s).Finished = true ∧ (Finish now s).EndTime = now) := by
  refine ⟨hc_eq_of_finished, ?_, ?_, ?_, ?_⟩
  · intro s h
    unfold HandleBackspace
    rw [if_pos (Or.inl h)]
  · intro s h
    unfold HandleDeleteWord
    rw [if_pos (Or.inl h)]
  · intro now s h
    unfold Finish
    rw [if_pos h]
  · intro now s h
    constructor <;> simp [Finish, h]

/-- Witness for C4: a concretely finished session absorbs every mutation,
and the finishing call itself recorded its clock value. -/
theorem finished_is_terminal_witness :
    (Finish 2 (NewTestState ['a'] true 30 0)).Finished = true ∧
    HandleChar 3 'z' (Finish 2 (NewTestState ['a'] true 30 0)) =
      Finish 2 (NewTestState ['a'] true 30 0) ∧
    HandleBackspace (Finish 2 (NewTestState ['a'] true 30 0)) =
      Finish 2 (NewTestState ['a'] true 30 0) ∧
    HandleDeleteWord (Finish 2 (NewTestState ['a'] true 30 0)) =
      Finish 2 (NewTestState ['a'] true 30 0) ∧
    Finish 9 (Finish 2 (NewTestState ['a'] true 30 0)) =
      Finish 2 (NewTestState ['a'] true 30 0) ∧
    (Finish 2 (NewTestState ['a'] true 30 0)).EndTime = 2 :=
  ⟨by decide,
   finished_is_terminal.1 3 'z' _ (by decide),
   finished_is_terminal.2.1 _ (by decide),
   finished_is_terminal.2.2.1 _ (by decide),
   finished_is_terminal.2.2.2.1 9 _ (by decide),
   (finished_is_terminal.2.2.2.2 2 (NewTestState ['a'] true 30 0) rfl).2⟩

/-- C5: `CorrectChars` counts the positions `i < len(input)` with
`i < len(target)` and `input[i] = target[i]`; `WrongChars` counts those
with `input[i] ≠ target[i]`; with target `"abc"` and typed `"abd"` they are
2 and 1. -/
theorem correct_wrong_counts :
    (∀ s : TestState,
      CorrectChars s = ((Finset.range s.Input.length).filter
        (fun i => i < s.Target.length ∧
          s.Input.getD i ' ' = s.Target.getD i ' ')).card ∧
      WrongChars s = ((Finset.range s.Input.length).filter
        (fun i => i < s.Target.length ∧
          s.Input.getD i ' ' ≠ s.Target.getD i ' ')).card) ∧
    CorrectChars (typeAll 0 "abd".toList (NewTestState "abc".toList false 0 0)) = 2 ∧
    WrongChars (typeAll 0 "abd".toList (NewTestState "abc".toList false 0 0)) = 1 :=
  ⟨fun s => ⟨countCmp_true_spec s.Input s.Target, countCmp_false_spec s.Input s.Target⟩,
   by decide, by decide⟩

/-- C6: `WPM` is 0 when the elapsed time in minutes is zero and otherwise
exactly `(correct / 5) / elapsedMinutes`. -/
theorem wpm_formula (now : ℚ) (s : TestState) :
    (Elapsed now s / 60 = 0 → WPM now s = 0) ∧
    (Elapsed now s / 60 ≠ 0 →
      WPM now s = ((CorrectChars s : ℚ) / 5) / (Elapsed now s / 60)) := by
  constructor <;> intro h <;> simp [WPM, h]

/-- Witness for C6: one correct character typed at time 0, read at time 60,
gives one elapsed minute and a WPM of `(1/5)/1`. -/
theorem wpm_formula_witness :
    Elapsed 60 (HandleChar 0 'a' (NewTestState "abc".toList true 30 3)) / 60 ≠ 0 ∧
    WPM 60 (HandleChar 0 'a' (NewTestState "abc".toList true 30 3)) =
      ((CorrectChars (HandleChar 0 'a' (NewTestState "abc".toList true 30 3)) : ℚ) / 5) /
        (Elapsed 60 (HandleChar 0 'a' (NewTestState "abc".toList true 30 3)) / 60) :=
  have h : Elapsed 60 (HandleChar 0 'a' (NewTestState "abc".toList true 30 3)) / 60 ≠ 0 := by
    have h1 : Elapsed 60 (HandleChar 0 'a' (NewTestState "abc".toList true 30 3)) = 60 := by
      have hs : (HandleChar 0 'a' (NewTestState "abc".toList true 30 3)).Started = true := by
        decide
      have hf : (HandleChar 0 'a' (NewTestState "abc".toList true 30 3)).Finished = false := by
        decide
      have hst : (HandleChar 0 'a' (NewTestState "abc".toList true 30 3)).StartTime = 0 := by
        decide
      simp only [Elapsed, hs, hf, hst]
      norm_num
    rw [h1]
    norm_num
  ⟨h, (wpm_formula 60 (HandleChar 0 'a' (NewTestState "abc".toList true 30 3))).2 h⟩

/-- C7: `Accuracy` is exactly 100 on empty input and otherwise exactly
`correct / len(input) * 100`. -/
theorem accuracy_formula (s : TestState) :
    (s.Input = [] → Accuracy s = 100) ∧
    (s.Input ≠ [] →
      Accuracy s = (CorrectChars s : ℚ) / (s.Input.length : ℚ) * 100) := by
  constructor
  · intro h
    simp [Accuracy, h]
  · intro h
    rw [Accuracy]
    rw [if_neg (by simpa [List.length_eq_zero] using h)]

/-- Witness for C7: target `"abc"`, typed `"abd"`: accuracy is `2/3 * 100`. -/
theorem accuracy_formula_witness :
    (typeAll 0 "abd".toList (NewTestState "abc".toList false 0 0)).Input ≠ [] ∧
    Accuracy (typeAll 0 "abd".toList (NewTestState "abc".toList false 0 0)) =
      (CorrectChars (typeAll 0 "abd".toList (NewTestState "abc".toList false 0 0)) : ℚ) /
        ((typeAll 0 "abd".toList (NewTestState "abc".toList false 0 0)).Input.length : ℚ) * 100 :=
  ⟨by decide,
   (accuracy_formula (typeAll 0 "abd".toList (NewTestState "abc".toList false 0 0))).2
     (by decide)⟩

/-- C8: `HandleDeleteWord` is a no-op on a finished or empty session;
otherwise it removes a (possibly empty) run of trailing spaces and then a
(possibly empty) run of trailing non-spaces, stopping at the first space
kept or at the start; on `"hello world "` and `"hello world"` the input
becomes `"hello "`, on `"hello"` it becomes empty. -/
theorem deleteWord_behavior :
    (∀ s : TestState, s.Finished = true ∨ s.Input = [] →
      HandleDeleteWord s = s) ∧
    (∀ s : TestState, s.Finished = false → s.Input ≠ [] →
      ∃ word spaces : List Char,
        s.Input = (HandleDeleteWord s).Input ++ word ++ spaces ∧
        (∀ c ∈ spaces, c = ' ') ∧
        (∀ c ∈ word, c ≠ ' ') ∧
        ((HandleDeleteWord s).Input = [] ∨
          ∃ pre, (HandleDeleteWord s).Input = pre ++ [' '])) ∧
    (HandleDeleteWord (exSession "hello world ")).Input = "hello ".toList ∧
    (HandleDeleteWord (exSession "hello world")).Input = "hello ".toList ∧
    (HandleDeleteWord (exSession "hello")).Input = [] := by
  refine ⟨?_, ?_, by decide, by decide, by decide⟩
  · intro s h
    unfold HandleDeleteWord
    rw [if_pos (by simpa using h)]
  · intro s hf hne
    have heq : (HandleDeleteWord s).Input =
        dropTrailingWhile (fun c => c ≠ ' ')
          (dropTrailingWhile (fun c => c = ' ') s.Input) := by
      unfold HandleDeleteWord
      rw [if_neg (by simp [hf, hne])]
    obtain ⟨spaces, hsp, hspmem⟩ :=
      dropTrailingWhile_decomp (fun c => c = ' ') s.Input
    obtain ⟨word, hw, hwmem⟩ :=
      dropTrailingWhile_decomp (fun c => c ≠ ' ')
        (dropTrailingWhile (fun c => c = ' ') s.Input)
    refine ⟨word, spaces, ?_, ?_, ?_, ?_⟩
    · rw [heq, ← hw]
      exact hsp
    · intro c hc
      simpa using hspmem c hc
    · intro c hc
      simpa using hwmem c hc
    · rcases dropTrailingWhile_last (fun c => c ≠ ' ')
        (dropTrailingWhile (fun c => c = ' ') s.Input) with h | ⟨pre, c, hpc, hc⟩
      · left; rw [heq]; exact h
      · right
        refine ⟨pre, ?_⟩
        have hcsp : c = ' ' := by simpa using hc
        rw [heq, hpc, hcsp]

/-- Witness for C8: the no-op branch on a finished session, and the
decomposition on the in-progress session with input `"hi"`. -/
theorem deleteWord_behavior_witness :
    ((Finish 1 (NewTestState ['a'] false 0 0)).Finished = true ∨
      (Finish 1 (NewTestState ['a'] false 0 0)).Input = []) ∧
    HandleDeleteWord (Finish 1 (NewTestState ['a'] false 0 0)) =
      Finish 1 (NewTestState ['a'] false 0 0) ∧
    (exSession "hi").Finished = false ∧
    (exSession "hi").Input ≠ [] ∧
    (∃ word spaces : List Char,
      (exSession "hi").Input =
        (HandleDeleteWord (exSession "hi")).Input ++ word ++ spaces ∧
      (∀ c ∈ spaces, c = ' ') ∧
      (∀ c ∈ word, c ≠ ' ') ∧
      ((HandleDeleteWord (exSession "hi")).Input = [] ∨
        ∃ pre, (HandleDeleteWord (exSession "hi")).Input = pre ++ [' '])) :=
  ⟨by decide,
   deleteWord_behavior.1 _ (by decide),
   by decide,
   by decide,
   deleteWord_behavior.2.1 (exSession "hi") (by decide) (by decide)⟩

/-- C9 counterexample: `NewTestState` applied to the empty target does NOT
fail — there is no validation and no error channel in the constructor
(`src/state.go:23`); it returns an ordinary usable session: unfinished, not
started, empty input, and it responds to `Finish` like any other session.
This falsifies the claim that empty-target construction is reported to the
caller as a construction error rather than producing a usable session. -/
theorem newTestState_empty_target_usable :
    (NewTestState [] false 0 0).Finished = false ∧
    (NewTestState [] false 0 0).Started = false ∧
    (NewTestState [] false 0 0).Input = [] ∧
    (Finish 3 (NewTestState [] false 0 0)).Finished = true := by
  decide

/-- C9 (amended): `NewTestState` performs no validation of the target: for
every target — including the empty string — it totally constructs an
ordinary initial session (the given target, empty input, not started, not
finished); target non-emptiness is a contract on the callers, not enforced
by the constructor. -/
theorem newTestState_total_no_validation (target : List Char) (tm : Bool)
    (tl wc : Int) :
    (NewTestState target tm tl wc).Target = target ∧
    (NewTestState target tm tl wc).Input = [] ∧
    (NewTestState target tm tl wc).Started = false ∧
    (NewTestState target tm tl wc).Finished = false :=
  ⟨rfl, rfl, rfl, rfl⟩

/-- C10: in every state reachable from construction, every typed character
is counted as exactly one of correct or wrong, so the two counts partition
the input length and `Accuracy` equals `correct / (correct + wrong) * 100`
on non-empty input. -/
theorem counts_partition_input (target : List Char) (tm : Bool) (tl wc : Int)
    (ops : List Op) :
    CorrectChars (runOps (NewTestState target tm tl wc) ops) +
      WrongChars (runOps (NewTestState target tm tl wc) ops) =
      (runOps (NewTestState target tm tl wc) ops).Input.length ∧
    ((runOps (NewTestState target tm tl wc) ops).Input ≠ [] →
      Accuracy (runOps (NewTestState target tm tl wc) ops) =
        (CorrectChars (runOps (NewTestState target tm tl wc) ops) : ℚ) /
          ((CorrectChars (runOps (NewTestState target tm tl wc) ops) : ℚ) +
            (WrongChars (runOps (NewTestState target tm tl wc) ops) : ℚ)) * 100) := by
  have hinv : (runOps (NewTestState target tm tl wc) ops).Input.length ≤
      (runOps (NewTestState target tm tl wc) ops).Target.length := by
    rw [runOps_target]
    have h := runOps_invariant ops (NewTestState target tm tl wc)
      (by simp [NewTestState])
    simpa [NewTestState] using h
  have hpart : CorrectChars (runOps (NewTestState target tm tl wc) ops) +
      WrongChars (runOps (NewTestState target tm tl wc) ops) =
      (runOps (NewTestState target tm tl wc) ops).Input.length := by
    rw [CorrectChars, WrongChars, countCmp_add]
    exact min_eq_left hinv
  refine ⟨hpart, ?_⟩
  intro hne
  have hlen : ((runOps (NewTestState target tm tl wc) ops).Input.length : ℚ) =
      (CorrectChars (runOps (NewTestState target tm tl wc) ops) : ℚ) +
        (WrongChars (runOps (NewTestState target tm tl wc) ops) : ℚ) := by
    rw [← hpart]
    push_cast
    ring
  rw [Accuracy]
  rw [if_neg (by simpa [List.length_eq_zero] using hne)]
  rw [hlen]

/-- Witness for C10: typing `'a'` then `'x'` against `"abc"` gives one
correct and one wrong character, and accuracy `1/(1+1) * 100`. -/
theorem counts_partition_input_witness :
    CorrectChars (runOps (NewTestState "abc".toList false 0 0)
        [Op.typeChar 0 'a', Op.typeChar 0 'x']) +
      WrongChars (runOps (NewTestState "abc".toList false 0 0)
        [Op.typeChar 0 'a', Op.typeChar 0 'x']) =
      (runOps (NewTestState "abc".toList false 0 0)
        [Op.typeChar 0 'a', Op.typeChar 0 'x']).Input.length ∧
    (runOps (NewTestState "abc".toList false 0 0)
      [Op.typeChar 0 'a', Op.typeChar 0 'x']).Input ≠ [] ∧
    Accuracy (runOps (NewTestState "abc".toList false 0 0)
        [Op.typeChar 0 'a', Op.typeChar 0 'x']) =
      (CorrectChars (runOps (NewTestState "abc".toList false 0 0)
          [Op.typeChar 0 'a', Op.typeChar 0 'x']) : ℚ) /
        ((CorrectChars (runOps (NewTestState "abc".toList false 0 0)
            [Op.typeChar 0 'a', Op.typeChar 0 'x']) : ℚ) +
          (WrongChars (runOps (NewTestState "abc".toList false 0 0)
            [Op.typeChar 0 'a', Op.typeChar 0 'x']) : ℚ)) * 100 :=
  ⟨(counts_partition_input "abc".toList false 0 0
      [Op.typeChar 0 'a', Op.typeChar 0 'x']).1,
   by decide,
   (counts_partition_input "abc".toList false 0 0
      [Op.typeChar 0 'a', Op.typeChar 0 'x']).2 (by decide)⟩

end TermType
